import Mathlib

/-!
Verification of the sale-history ingestion cache and valuation estimator
(`sorare-dashboard`): a shallow embedding of `db_backend.py`,
`sorare_backend.py` (the `fetch_recent_sales` coordinator) and
`price_history.py` (the weighted-median estimator), together with proofs
about the embedded definitions.

Modelling conventions:
* database timestamps are integers (`ℤ`); a `none` date models SQL `NULL`
  (resp. pandas `NaT` for feed nodes);
* monetary amounts are rationals (`ℚ`);
* the store (`recent_sales` table) is a list of rows; SQL `NULL` in a
  column is `Option.none`;
* Python truthiness of an optional string (`if not seller_slug`) treats
  both `None` and `""` as falsy.
-/

namespace Sorare

/-- One row of the `recent_sales` table (see `ensure_schema` in
`db_backend.py`).  `id` is the primary key; nullable columns are
`Option`-typed. -/
structure SaleRow where
  id : String
  player_slug : String
  rarity : Option String
  card_slug : Option String
  in_season_eligible : Option Bool
  price_eur : Option ℚ
  buyer_slug : Option String
  seller_slug : Option String
  date : Option ℤ
deriving DecidableEq

/-- Python truthiness of an optional string: `None` and `""` are falsy
(this is the `if not seller_slug` / `if r.get("seller_slug")` test). -/
def truthyStr : Option String → Bool
  | none => false
  | some s => !(s == "")

/-- `ensure_schema` (`db_backend.py`): besides the idempotent DDL it runs
`DELETE FROM recent_sales WHERE seller_slug IS NULL` before enforcing the
not-null constraint, so its observable effect on the store contents is the
removal of null-seller rows. -/
def ensure_schema (store : List SaleRow) : List SaleRow :=
  store.filter (fun r => r.seller_slug.isSome)

/-- `max_date_for_player` (`db_backend.py`): `SELECT MAX(date) ... WHERE
player_slug = :slug`; SQL `MAX` ignores `NULL` dates and yields `NULL` on
an empty selection. -/
def max_date_for_player (store : List SaleRow) (slug : String) : Option ℤ :=
  ((store.filter (fun r => r.player_slug = slug)).filterMap (fun r => r.date)).max?

/-- `upsert_sales` (`db_backend.py`): first `rows = [r for r in rows if
r.get("seller_slug")]`, then a single `INSERT ... ON CONFLICT (id) DO
NOTHING`.  The insert is modelled left to right: a row is appended iff no
row with its `id` is already present (rows earlier in the same batch
included, which is how `DO NOTHING` behaves for in-batch duplicates). -/
def upsert_sales (store : List SaleRow) (rows : List SaleRow) : List SaleRow :=
  (rows.filter (fun r => truthyStr r.seller_slug)).foldl
    (fun acc r => if acc.any (fun x => x.id == r.id) then acc else acc ++ [r]) store

/-- Sort key used by `ORDER BY date DESC`: PostgreSQL sorts `NULL` first
under `DESC`, i.e. `NULL` compares as the largest value, which is exactly
`⊤` in `WithTop ℤ`. -/
def dateKey (r : SaleRow) : WithTop ℤ :=
  r.date.elim ⊤ (fun d => (d : WithTop ℤ))

/-- The `ORDER BY date DESC` relation on rows. -/
def byDateDesc (a b : SaleRow) : Prop := dateKey b ≤ dateKey a

instance : DecidableRel byDateDesc :=
  fun a b => inferInstanceAs (Decidable (dateKey b ≤ dateKey a))

instance : IsTotal SaleRow byDateDesc :=
  ⟨fun a b => le_total (dateKey b) (dateKey a)⟩

instance : IsTrans SaleRow byDateDesc :=
  ⟨fun _ _ _ h1 h2 => le_trans h2 h1⟩

/-- The per-player part of `load_sales_for_owned`'s ranked query:
`ROW_NUMBER() OVER (PARTITION BY player_slug ORDER BY date DESC)` with
`rn <= limit` keeps, per player, the first `limit` rows of the
date-descending ordering. -/
def window_for_slug (store : List SaleRow) (slug : String) (limit : ℕ) : List SaleRow :=
  ((store.filter (fun r => r.player_slug = slug)).insertionSort byDateDesc).take limit

/-- `load_sales_for_owned` (`db_backend.py`): an empty slug list returns an
empty frame without issuing any SQL; otherwise the ranked query keeps at
most `limit` rows per requested player.  The SQL result-set order across
players is unspecified; it is modelled as per-player blocks. -/
def load_sales_for_owned (store : List SaleRow) (owned_slugs : List String)
    (limit : ℕ) : List SaleRow :=
  if owned_slugs.isEmpty then []
  else owned_slugs.dedup.flatMap (fun s => window_for_slug store s limit)

/-- The store key invariant: `id` is the primary key of `recent_sales`. -/
def uniqueIds (store : List SaleRow) : Prop :=
  (store.map (fun r => r.id)).Nodup

/-- The seller invariant: no persisted row has a SQL-`NULL` seller. -/
def sellersPresent (store : List SaleRow) : Prop :=
  ∀ r ∈ store, r.seller_slug ≠ none

/-! ### Valuation estimator (`price_history.py`) -/

/-- `np.cumsum`: running sums of a list. -/
def cumsum : List ℚ → List ℚ
  | [] => []
  | x :: xs => x :: (cumsum xs).map (fun c => x + c)

/-- The value-ascending order used by `np.argsort(data)` on the
(value, weight) pairs. -/
def valOrder (a b : ℚ × ℚ) : Prop := a.1 ≤ b.1

instance : DecidableRel valOrder :=
  fun a b => inferInstanceAs (Decidable (a.1 ≤ b.1))

instance : IsTotal (ℚ × ℚ) valOrder := ⟨fun a b => le_total a.1 b.1⟩

instance : IsTrans (ℚ × ℚ) valOrder := ⟨fun _ _ _ => le_trans⟩

/-- `weighted_median` (`price_history.py`): sort the (value, weight) pairs
by value ascending (`argsort`), take cumulative weights, and return the
value at index `np.searchsorted(cumsum, total/2)`, i.e. the first index
whose cumulative weight is `≥ total/2` (`side='left'`).  `getD _ 0`
models the array indexing (the index is in range whenever the data is
nonempty and the weights are nonnegative). -/
def weighted_median (data weights : List ℚ) : ℚ :=
  let sorted := (data.zip weights).insertionSort valOrder
  let ws := sorted.map Prod.snd
  let cutoff := ws.sum / 2
  (sorted.map Prod.fst).getD ((cumsum ws).findIdx (fun c => cutoff ≤ c)) 0

/-- One cleaned sale used by `estimate_current_value`: the estimator runs
on rows that have a player, a price and a date. -/
structure Sale where
  player_slug : String
  price : ℚ
  date : ℤ
deriving DecidableEq

/-- The date-ascending order of `group.sort_values('date')`. -/
def saleDateAsc (a b : Sale) : Prop := a.date ≤ b.date

instance : DecidableRel saleDateAsc :=
  fun a b => inferInstanceAs (Decidable (a.date ≤ b.date))

instance : IsTotal Sale saleDateAsc := ⟨fun a b => le_total a.date b.date⟩

instance : IsTrans Sale saleDateAsc := ⟨fun _ _ _ => le_trans⟩

/-- The group keys of `df.groupby('player_slug')`. -/
def slugsOf (sales : List Sale) : List String :=
  (sales.map (fun s => s.player_slug)).dedup

/-- `estimate_current_value` (`price_history.py`): group by player, sort
each group by date, set `days_ago = latest - date` and
`weight = exp(-lambda_ * days_ago)`, and take the weighted median of the
group's prices.  The decay kernel `exp(-lambda_ * ·)` is abstracted as
the weight function `w : ℕ → ℚ` (dates are integral days here, so
`days_ago` is a natural number); `lambda_ = 0` instantiates `w` with the
constant `1`, because `exp (-0 * d) = 1` exactly. -/
def estimate_current_value (w : ℕ → ℚ) (sales : List Sale) : List (String × ℚ) :=
  (slugsOf sales).map (fun s =>
    let g := (sales.filter (fun r => r.player_slug = s)).insertionSort saleDateAsc
    let latest := (g.map (fun r => r.date)).max?.getD 0
    (s, weighted_median (g.map (fun r => r.price))
          (g.map (fun r => w (latest - r.date).toNat))))

/-- Modelled from the spec's words (`§4.3` / `§8`): the "ordinary
(lower-median)" of a list of prices — the element of the ascending sort at
position `⌈n/2⌉ - 1`, i.e. the lower of the two middle elements when `n`
is even.  This definition follows the spec, to be compared with the
source-derived estimator. -/
def lowerMedian (l : List ℚ) : ℚ :=
  (l.insertionSort (· ≤ ·)).getD ((l.length + 1) / 2 - 1) 0

/-! ### Ingestion coordinator (`fetch_recent_sales` in `sorare_backend.py`)

The GraphQL feed is modelled as a scripted function from request to
response; `client.execute` raising a transient exception is a `FeedResult`
of `err`.  Node dates are the result of
`pd.to_datetime(n.get("date"), utc=True, errors="coerce")`: `none` models
a missing date (`NaT`).  The unbounded `while` loop is given fuel: every
theorem below holds for all fuel values, and concrete runs use enough
fuel to terminate naturally. -/

/-- One node of the feed's `tokenPrices.nodes`. -/
structure FeedNode where
  id : String
  /-- `amounts.eurCents`; `none` models a missing `amounts` or `eurCents`. -/
  amount_eurCents : Option ℤ
  /-- result of `pd.to_datetime(..., errors="coerce")`; `none` is `NaT`. -/
  ndate : Option ℤ
  card_slug : Option String
  card_in_season : Option Bool
  /-- `deal.userBuyer` / `deal.buyer` slug. -/
  buyer_slug : Option String
  /-- `deal.userSeller.slug`. -/
  seller_slug : Option String
deriving DecidableEq

/-- One feed page: `tokenPrices` with its `nodes` and `pageInfo`. -/
structure PageData where
  nodes : List FeedNode
  hasPreviousPage : Bool
  startCursor : Option String
deriving DecidableEq

/-- Result of one `client.execute` call: a transient failure, a response
with `anyPlayer` null, or a page. -/
inductive FeedResult where
  | err
  | ok (player : Option PageData)
deriving DecidableEq

/-- The variables of one `PlayerRecentTokenPrices` request. -/
structure FeedRequest where
  slug : String
  rarity : String
  before : Option String
  last : ℕ
  seasonEligibility : String
deriving DecidableEq

/-- A scripted remote feed. -/
def Feed := FeedRequest → FeedResult

/-- One row of the `df_owned` frame handed to `fetch_recent_sales`. -/
structure OwnedItem where
  player_slug : String
  /-- raw rarity as fetched (`row["rarity"]`). -/
  rarity : String
  /-- truthiness of `row.get("in_season_eligible")`. -/
  in_season_eligible : Bool
deriving DecidableEq

/-- `row["rarity"].lower().replace(" ", "_")`. -/
def normRarity (s : String) : String :=
  s.toLower.replace " " "_"

/-- The request built at the top of each loop iteration. -/
def mkRequest (item : OwnedItem) (before : Option String) (batch_size : ℕ) : FeedRequest :=
  { slug := item.player_slug
    rarity := normRarity item.rarity
    before := before
    last := batch_size
    seasonEligibility := if item.in_season_eligible then "IN_SEASON" else "CLASSIC" }

/-- `eur = eur_cents / 100.0 if eur_cents else None`: Python truthiness
makes both `None` and `0` produce `None`. -/
def toEur : Option ℤ → Option ℚ
  | none => none
  | some c => if c = 0 then none else some ((c : ℚ) / 100)

/-- The dictionary appended to `new_rows` for an accepted node. -/
def rowOfNode (player_slug rarity : String) (n : FeedNode) : SaleRow :=
  { id := n.id
    player_slug := player_slug
    rarity := some rarity
    card_slug := n.card_slug
    in_season_eligible := n.card_in_season
    price_eur := toEur n.amount_eurCents
    buyer_slug := n.buyer_slug
    seller_slug := n.seller_slug
    date := n.ndate }

/-- The test `last_dt is not None and pd.notna(n_dt) and n_dt <= last_dt`. -/
def reachedKnown (last_dt : Option ℤ) (nd : Option ℤ) : Bool :=
  match last_dt, nd with
  | some d, some t => t ≤ d
  | _, _ => false

/-- Mutable state of the per-item paging loop: the (coordinator-global)
`new_rows` buffer, the per-item `fetched_new` counter and the `stop`
flag. -/
structure ItemState where
  new_rows : List SaleRow
  fetched_new : ℕ
  stop : Bool
deriving DecidableEq

/-- The body of `for n in nodes` in `fetch_recent_sales`: a node at or
before the watermark sets `stop` and is skipped (`continue` — the loop
keeps scanning the rest of the batch); a seller-less node is skipped;
any other node is buffered and counted, whatever its price. -/
def processNode (slug rarity : String) (last_dt : Option ℤ) (st : ItemState)
    (n : FeedNode) : ItemState :=
  if reachedKnown last_dt n.ndate then
    { st with stop := true }
  else if truthyStr n.seller_slug then
    { st with new_rows := st.new_rows ++ [rowOfNode slug rarity n]
              fetched_new := st.fetched_new + 1 }
  else st

/-- The `while fetched_new < total_limit and not stop` loop of
`fetch_recent_sales` for one item, with a fuel bound on the number of page
requests.  Returns the final state and the list of feed requests issued,
or `Except.error ()` when `client.execute` raises (there is no
`try`/`except` in the source, so the exception propagates). -/
def ingest_item (feed : Feed) (item : OwnedItem) (last_dt : Option ℤ)
    (batch_size total_limit : ℕ) :
    ℕ → Option String → ItemState → List FeedRequest →
      Except Unit (ItemState × List FeedRequest)
  | 0, _, st, reqs => .ok (st, reqs)
  | fuel + 1, before, st, reqs =>
    if st.fetched_new < total_limit ∧ st.stop = false then
      match feed (mkRequest item before batch_size) with
      | .err => .error ()
      | .ok none => .ok (st, reqs ++ [mkRequest item before batch_size])
      | .ok (some pd) =>
        if pd.nodes.isEmpty then .ok (st, reqs ++ [mkRequest item before batch_size])
        else
          if (pd.nodes.foldl
              (processNode item.player_slug (normRarity item.rarity) last_dt) st).stop then
            .ok (pd.nodes.foldl
                (processNode item.player_slug (normRarity item.rarity) last_dt) st,
              reqs ++ [mkRequest item before batch_size])
          else if pd.hasPreviousPage then
            ingest_item feed item last_dt batch_size total_limit fuel pd.startCursor
              (pd.nodes.foldl
                (processNode item.player_slug (normRarity item.rarity) last_dt) st)
              (reqs ++ [mkRequest item before batch_size])
          else
            .ok (pd.nodes.foldl
                (processNode item.player_slug (normRarity item.rarity) last_dt) st,
              reqs ++ [mkRequest item before batch_size])
    else .ok (st, reqs)

/-- Observable side effects of one coordinator run, in order. -/
inductive Effect where
  | ensureSchema
  | maxDateRead (slug : String)
  | feedRequest (req : FeedRequest)
  | upsertWrite (count : ℕ)
  | windowQuery (slugs : List String)
deriving DecidableEq

/-- The `for _, row in df_owned.iterrows()` loop: each item reads its
watermark from the (pre-run) store, pages the feed, and extends the shared
`new_rows` buffer.  An uncaught feed exception aborts the whole loop. -/
def run_items (feed : Feed) (store : List SaleRow) (batch_size total_limit fuel : ℕ) :
    List OwnedItem → List SaleRow → List Effect →
      Except Unit (List SaleRow × List Effect)
  | [], rows, tr => .ok (rows, tr)
  | item :: rest, rows, tr =>
    match ingest_item feed item (max_date_for_player store item.player_slug)
        batch_size total_limit fuel none
        { new_rows := rows, fetched_new := 0, stop := false } [] with
    | .error e => .error e
    | .ok (st, reqs) =>
      run_items feed store batch_size total_limit fuel rest st.new_rows
        (tr ++ [Effect.maxDateRead item.player_slug] ++ reqs.map Effect.feedRequest)

/-- `list(df_owned["player_slug"].unique())`. -/
def ownedSlugs (items : List OwnedItem) : List String :=
  (items.map (fun i => i.player_slug)).dedup

/-- Result of a successful `fetch_recent_sales` run: the store after the
final upsert, the end-of-run window read, and the effect trace. -/
structure RunResult where
  store : List SaleRow
  window : List SaleRow
  trace : List Effect
deriving DecidableEq

/-- `fetch_recent_sales` (`sorare_backend.py`): `ensure_schema` runs
unconditionally at entry; each owned item is paged in turn (an exception
aborts the whole run — nothing is upserted, because the single
`upsert_sales` call happens only after the loop); `upsert_sales` opens a
write only when the seller-filtered rows are nonempty, and
`load_sales_for_owned` queries only when the slug list is nonempty. -/
def fetch_recent_sales (feed : Feed) (store0 : List SaleRow) (items : List OwnedItem)
    (batch_size total_limit fuel : ℕ) : Except Unit RunResult :=
  match run_items feed (ensure_schema store0) batch_size total_limit fuel items []
      [Effect.ensureSchema] with
  | .error e => .error e
  | .ok (new_rows, tr) =>
    .ok { store := upsert_sales (ensure_schema store0) new_rows
          window := load_sales_for_owned (upsert_sales (ensure_schema store0) new_rows)
            (ownedSlugs items) total_limit
          trace := if (ownedSlugs items).isEmpty then
              (if (new_rows.filter (fun r => truthyStr r.seller_slug)).isEmpty then tr
               else tr ++ [Effect.upsertWrite
                 (new_rows.filter (fun r => truthyStr r.seller_slug)).length])
            else
              (if (new_rows.filter (fun r => truthyStr r.seller_slug)).isEmpty then tr
               else tr ++ [Effect.upsertWrite
                 (new_rows.filter (fun r => truthyStr r.seller_slug)).length])
              ++ [Effect.windowQuery (ownedSlugs items)] }

/-- Newest-first ordering of feed nodes (how `tokenPrices(last: …)` pages
arrive): earlier nodes are dated no earlier than later ones; nodes
without a parseable date are unconstrained. -/
def nodeGeB (a b : FeedNode) : Bool :=
  match a.ndate, b.ndate with
  | some ta, some tb => tb ≤ ta
  | _, _ => true

/-! ### Concrete fixtures for counterexamples and witnesses -/

/-- A legacy store row with a SQL-`NULL` seller. -/
def rowLegacy : SaleRow :=
  { id := "L0", player_slug := "p", rarity := none, card_slug := none
    in_season_eligible := none, price_eur := none, buyer_slug := none
    seller_slug := none, date := none }

/-- A fresh peer sale node dated day 9. -/
def nodeA : FeedNode :=
  { id := "a1", amount_eurCents := some 500, ndate := some 9, card_slug := some "c-a"
    card_in_season := some true, buyer_slug := some "b", seller_slug := some "s" }

/-- An old sale node dated day 3 (at or before a watermark of 5). -/
def nodeOld : FeedNode :=
  { id := "o1", amount_eurCents := some 400, ndate := some 3, card_slug := some "c-o"
    card_in_season := some true, buyer_slug := some "b", seller_slug := some "s" }

/-- A node with a seller but no price (`amounts.eurCents` missing). -/
def nodeNoPrice : FeedNode :=
  { id := "np1", amount_eurCents := none, ndate := some 7, card_slug := some "c-n"
    card_in_season := some true, buyer_slug := some "b", seller_slug := some "s" }

/-- Second-page nodes for the quota-overshoot scenario. -/
def nodeB1 : FeedNode :=
  { id := "b1", amount_eurCents := some 300, ndate := some 8, card_slug := some "c-b1"
    card_in_season := some true, buyer_slug := some "b", seller_slug := some "s" }

def nodeB2 : FeedNode :=
  { id := "b2", amount_eurCents := some 200, ndate := some 7, card_slug := some "c-b2"
    card_in_season := some true, buyer_slug := some "b", seller_slug := some "s" }

def itemP : OwnedItem := { player_slug := "p", rarity := "Limited", in_season_eligible := false }

def itemQ : OwnedItem := { player_slug := "q", rarity := "Limited", in_season_eligible := false }

/-- Feed that raises a transient error for item `q` and serves one final
page for every other item. -/
def feedErrQ : Feed := fun req =>
  if req.slug = "q" then .err
  else .ok (some { nodes := [nodeA], hasPreviousPage := false, startCursor := none })

/-- Feed returning one batch whose nodes are NOT newest-first: an
at-watermark node first, a fresh node after it. -/
def feedUnsorted : Feed := fun _ =>
  .ok (some { nodes := [nodeOld, nodeA], hasPreviousPage := false, startCursor := none })

/-- Feed returning one newest-first batch containing a fresh node and then
an old (at-or-before-watermark) node. -/
def feedSorted : Feed := fun _ =>
  .ok (some { nodes := [nodeA, nodeOld], hasPreviousPage := false, startCursor := none })

/-- Feed serving a node that has a seller but lacks a price. -/
def feedNoPrice : Feed := fun _ =>
  .ok (some { nodes := [nodeNoPrice], hasPreviousPage := false, startCursor := none })

/-- Two-page feed for the quota-overshoot scenario: one node on the first
page, two on the second. -/
def feedTwoPages : Feed := fun req =>
  if req.before = none then
    .ok (some { nodes := [nodeA], hasPreviousPage := true, startCursor := some "c1" })
  else if req.before = some "c1" then
    .ok (some { nodes := [nodeB1, nodeB2], hasPreviousPage := false, startCursor := none })
  else .ok none

/-! ## Helper lemmas -/

theorem cumsum_length (l : List ℚ) : (cumsum l).length = l.length := by
  induction l with
  | nil => rfl
  | cons x xs ih => simp [cumsum, ih]

theorem sum_mem_cumsum {l : List ℚ} (h : l ≠ []) : l.sum ∈ cumsum l := by
  induction l with
  | nil => exact absurd rfl h
  | cons x xs ih =>
    rcases eq_or_ne xs [] with rfl | hne
    · simp [cumsum]
    · simp only [cumsum, List.sum_cons, List.mem_cons]
      exact Or.inr (List.mem_map.mpr ⟨xs.sum, ih hne, rfl⟩)

theorem findIdx_map (p : α → Bool) (f : β → α) (l : List β) :
    (l.map f).findIdx p = l.findIdx (fun b => p (f b)) := by
  induction l with
  | nil => rfl
  | cons x xs ih => simp [List.findIdx_cons, ih]

/-- Position of the first cumulative weight `≥ k/2` over `m` unit
weights: the lower-median index `⌈k/2⌉ - 1`. -/
theorem cumsum_replicate_one_findIdx :
    ∀ (m k : ℕ), 0 < k → k ≤ 2 * m →
      (cumsum (List.replicate m (1:ℚ))).findIdx (fun c => (k:ℚ)/2 ≤ c)
        = (k + 1) / 2 - 1 := by
  intro m
  induction m with
  | zero => intro k hk hkm; omega
  | succ m ih =>
    intro k hk hkm
    rw [List.replicate_succ]
    rw [show cumsum (1 :: List.replicate m (1:ℚ))
          = 1 :: (cumsum (List.replicate m 1)).map (fun c => 1 + c) from rfl]
    rw [List.findIdx_cons]
    by_cases h1 : (k:ℚ)/2 ≤ 1
    · have hk2 : k ≤ 2 := by
        have := (div_le_one (by norm_num : (0:ℚ) < 2)).mp h1
        exact_mod_cast this
      have : (decide ((k:ℚ)/2 ≤ 1)) = true := decide_eq_true h1
      rw [this]
      simp only [cond_true]
      omega
    · have hk2 : 2 < k := by
        push_neg at h1
        have := (one_lt_div (by norm_num : (0:ℚ) < 2)).mp h1
        exact_mod_cast this
      have : (decide ((k:ℚ)/2 ≤ 1)) = false := decide_eq_false h1
      rw [this]
      simp only [cond_false]
      rw [findIdx_map]
      have hpred : (fun c => decide ((k:ℚ)/2 ≤ 1 + c))
          = (fun c => decide (((k-2:ℕ):ℚ)/2 ≤ c)) := by
        funext c
        have hcast : ((k - 2 : ℕ) : ℚ) = (k:ℚ) - 2 := by
          push_cast [Nat.cast_sub (by omega : 2 ≤ k)]; ring
        rw [hcast]
        congr 1
        rw [eq_iff_iff]
        rw [sub_div]
        constructor
        · intro h; linarith
        · intro h; linarith
      rw [hpred]
      rw [ih (k - 2) (by omega) (by omega)]
      omega

theorem zip_replicate_one (l : List ℚ) :
    l.zip (List.replicate l.length (1:ℚ)) = l.map (fun x => (x, (1:ℚ))) := by
  induction l with
  | nil => rfl
  | cons x xs ih => simp [List.replicate_succ, ih]

theorem map_fst_pair_one (l : List ℚ) :
    List.map (Prod.fst ∘ fun x => (x, (1:ℚ))) l = l := by
  induction l with
  | nil => rfl
  | cons x xs ih => rw [List.map_cons, ih]; rfl

/-- Stability fact: sorting value-weight pairs by value and projecting the
values is the same as sorting the values. -/
theorem sorted_pairs_map_fst (l : List ℚ) :
    ((l.map (fun x => (x, (1:ℚ)))).insertionSort valOrder).map Prod.fst
      = l.insertionSort (· ≤ ·) := by
  have h := List.map_insertionSort valOrder (· ≤ ·) (Prod.fst : ℚ × ℚ → ℚ)
      (l.map (fun x => (x, (1:ℚ)))) (fun a _ b _ => Iff.rfl)
  rw [h, List.map_map]
  congr 1
  exact map_fst_pair_one l

theorem sorted_pairs_map_snd (l : List ℚ) :
    ((l.map (fun x => (x, (1:ℚ)))).insertionSort valOrder).map Prod.snd
      = List.replicate l.length (1:ℚ) := by
  apply List.eq_replicate_iff.mpr
  constructor
  · simp
  · intro b hb
    rcases List.mem_map.mp hb with ⟨a, ha, rfl⟩
    rcases List.mem_map.mp ((List.mem_insertionSort valOrder).mp ha) with ⟨x, _, rfl⟩
    rfl

/-- With all weights equal to `1`, `weighted_median` is the lower
median. -/
theorem weighted_median_ones (l : List ℚ) (hne : l ≠ []) :
    weighted_median l (List.replicate l.length 1) = lowerMedian l := by
  unfold weighted_median lowerMedian
  simp only [zip_replicate_one, sorted_pairs_map_snd, sorted_pairs_map_fst,
    List.sum_replicate, nsmul_eq_mul, mul_one]
  rw [cumsum_replicate_one_findIdx l.length l.length
    (by exact Nat.pos_of_ne_zero (fun h => hne (List.eq_nil_of_length_eq_zero h)))
    (by omega)]

theorem lowerMedian_perm {l l' : List ℚ} (h : l.Perm l') :
    lowerMedian l = lowerMedian l' := by
  unfold lowerMedian
  have hs : l.insertionSort (· ≤ ·) = l'.insertionSort (· ≤ ·) := by
    apply List.eq_of_perm_of_sorted (r := (· ≤ ·))
    · exact (List.perm_insertionSort _ l).trans (h.trans (List.perm_insertionSort _ l').symm)
    · exact List.sorted_insertionSort _ l
    · exact List.sorted_insertionSort _ l'
  rw [hs, h.length_eq]

/-- Characterization of the `ON CONFLICT (id) DO NOTHING` fold: key
uniqueness is preserved, existing rows are untouched, and the appended
tail holds only input rows whose `id` was absent. -/
theorem upsert_fold_spec (rs : List SaleRow) :
    ∀ store : List SaleRow, uniqueIds store →
      uniqueIds (rs.foldl
        (fun acc r => if acc.any (fun x => x.id == r.id) then acc else acc ++ [r]) store) ∧
      ∃ tail, rs.foldl
          (fun acc r => if acc.any (fun x => x.id == r.id) then acc else acc ++ [r]) store
          = store ++ tail ∧
        ∀ r ∈ tail, r ∈ rs ∧ ∀ x ∈ store, x.id ≠ r.id := by
  induction rs with
  | nil =>
    intro store h
    exact ⟨h, [], by simp⟩
  | cons r rs ih =>
    intro store h
    by_cases hc : store.any (fun x => x.id == r.id)
    · simp only [List.foldl_cons, if_pos hc]
      rcases ih store h with ⟨h1, tail, h2, h3⟩
      exact ⟨h1, tail, h2, fun x hx => ⟨List.mem_cons_of_mem _ (h3 x hx).1, (h3 x hx).2⟩⟩
    · simp only [List.foldl_cons, if_neg hc]
      have hnotin : ∀ x ∈ store, x.id ≠ r.id := by
        intro x hx heq
        exact hc (List.any_eq_true.mpr ⟨x, hx, by simp [heq]⟩)
      have h' : uniqueIds (store ++ [r]) := by
        unfold uniqueIds at h ⊢
        rw [List.map_append, List.map_singleton]
        apply List.Nodup.append h (List.nodup_singleton _)
        intro a ha hb
        rcases List.mem_map.mp ha with ⟨x, hx, rfl⟩
        exact hnotin x hx (List.mem_singleton.mp hb)
      rcases ih (store ++ [r]) h' with ⟨h1, tail, h2, h3⟩
      refine ⟨h1, r :: tail, by rw [h2]; simp, ?_⟩
      intro x hx
      rcases List.mem_cons.mp hx with rfl | hx'
      · exact ⟨List.mem_cons_self _ _, hnotin⟩
      · refine ⟨List.mem_cons_of_mem _ (h3 x hx').1, ?_⟩
        intro y hy
        exact (h3 x hx').2 y (List.mem_append_left _ hy)

theorem mem_upsert_fold {r : SaleRow} : ∀ (rs store : List SaleRow),
    r ∈ rs.foldl
      (fun acc x => if acc.any (fun y => y.id == x.id) then acc else acc ++ [x]) store →
    r ∈ store ∨ r ∈ rs := by
  intro rs
  induction rs with
  | nil => intro store h; exact Or.inl h
  | cons x xs ih =>
    intro store h
    simp only [List.foldl_cons] at h
    by_cases hc : store.any (fun y => y.id == x.id)
    · rw [if_pos hc] at h
      rcases ih store h with h | h
      · exact Or.inl h
      · exact Or.inr (List.mem_cons_of_mem _ h)
    · rw [if_neg hc] at h
      rcases ih (store ++ [x]) h with h | h
      · rcases List.mem_append.mp h with h | h
        · exact Or.inl h
        · exact Or.inr (List.mem_cons.mpr (Or.inl (List.mem_singleton.mp h)))
      · exact Or.inr (List.mem_cons_of_mem _ h)

/-- Rows of the upserted store come either from the old store or from the
seller-filtered input. -/
theorem mem_upsert {store rows : List SaleRow} {r : SaleRow}
    (h : r ∈ upsert_sales store rows) :
    r ∈ store ∨ (r ∈ rows ∧ truthyStr r.seller_slug) := by
  unfold upsert_sales at h
  rcases mem_upsert_fold _ _ h with h | h
  · exact Or.inl h
  · have := List.mem_filter.mp h
    exact Or.inr ⟨this.1, this.2⟩

theorem truthy_ne_none {o : Option String} (h : truthyStr o) : o ≠ none := by
  cases o with
  | none => simp [truthyStr] at h
  | some s => simp

theorem mem_load {store : List SaleRow} {slugs : List String} {lim : ℕ} {r : SaleRow}
    (h : r ∈ load_sales_for_owned store slugs lim) : r ∈ store := by
  unfold load_sales_for_owned at h
  split at h
  · cases h
  · rcases List.mem_flatMap.mp h with ⟨s, _, hr⟩
    unfold window_for_slug at hr
    have h1 : r ∈ (store.filter fun x => x.player_slug = s).insertionSort byDateDesc :=
      List.mem_of_mem_take hr
    exact List.mem_of_mem_filter ((List.mem_insertionSort _).mp h1)

theorem window_len (store : List SaleRow) (slug : String) (limit : ℕ) :
    (window_for_slug store slug limit).length
      = min limit (store.filter (fun r => r.player_slug = slug)).length := by
  unfold window_for_slug
  rw [List.length_take, List.length_insertionSort]

theorem window_sorted (store : List SaleRow) (slug : String) (limit : ℕ) :
    (window_for_slug store slug limit).Sorted byDateDesc := by
  unfold window_for_slug
  exact (List.sorted_insertionSort byDateDesc _).sublist (List.take_sublist _ _)

theorem window_mem {store : List SaleRow} {slug : String} {limit : ℕ} {r : SaleRow}
    (h : r ∈ window_for_slug store slug limit) : r ∈ store ∧ r.player_slug = slug := by
  unfold window_for_slug at h
  have h1 := (List.mem_insertionSort byDateDesc).mp (List.mem_of_mem_take h)
  have h2 := List.mem_filter.mp h1
  exact ⟨h2.1, by simpa using h2.2⟩

theorem window_unknown {store : List SaleRow} {slug : String} {limit : ℕ}
    (h : ∀ r ∈ store, r.player_slug ≠ slug) : window_for_slug store slug limit = [] := by
  unfold window_for_slug
  have : store.filter (fun r => r.player_slug = slug) = [] := by
    apply List.filter_eq_nil_iff.mpr
    intro r hr
    simpa using h r hr
  rw [this]
  simp

theorem window_most_recent {store : List SaleRow} {slug : String} {limit : ℕ} :
    ∀ x ∈ ((store.filter (fun r => r.player_slug = slug)).insertionSort byDateDesc).drop limit,
      ∀ y ∈ window_for_slug store slug limit, dateKey x ≤ dateKey y := by
  intro x hx y hy
  exact (List.sorted_insertionSort byDateDesc
    (store.filter (fun r => r.player_slug = slug))).rel_of_mem_take_of_mem_drop hy hx

theorem mem_load_link {store : List SaleRow} {slugs : List String} {lim : ℕ} {r : SaleRow}
    (h : r ∈ load_sales_for_owned store slugs lim) :
    r.player_slug ∈ slugs ∧ r ∈ window_for_slug store r.player_slug lim := by
  unfold load_sales_for_owned at h
  split at h
  · cases h
  · rcases List.mem_flatMap.mp h with ⟨s, hs, hr⟩
    have heq := (window_mem hr).2
    rw [heq]
    exact ⟨List.mem_dedup.mp hs, hr⟩

theorem flatMap_window_count (store : List SaleRow) (lim : ℕ) (s : String) :
    ∀ L : List String, L.Nodup →
      ((L.flatMap fun s' => window_for_slug store s' lim).filter
        (fun r => r.player_slug = s)).length ≤ lim := by
  intro L
  induction L with
  | nil => simp
  | cons a L ih =>
    intro hnd
    rw [List.flatMap_cons, List.filter_append, List.length_append]
    rcases List.nodup_cons.mp hnd with ⟨hna, hndL⟩
    by_cases has : a = s
    · subst has
      have hrest : ((L.flatMap fun s' => window_for_slug store s' lim).filter
          (fun r => r.player_slug = a)).length = 0 := by
        rw [List.length_eq_zero, List.filter_eq_nil_iff]
        intro r hr
        rcases List.mem_flatMap.mp hr with ⟨s', hs', hr'⟩
        have heq := (window_mem hr').2
        simp only [decide_eq_true_eq]
        intro hcon
        rw [hcon] at heq
        exact hna (heq ▸ hs')
      rw [hrest]
      have h1 : ((window_for_slug store a lim).filter
          (fun r => r.player_slug = a)).length ≤ (window_for_slug store a lim).length :=
        List.length_filter_le _ _
      have h2 : (window_for_slug store a lim).length ≤ lim := by
        rw [window_len]; omega
      omega
    · have hblk : ((window_for_slug store a lim).filter
          (fun r => r.player_slug = s)).length = 0 := by
        rw [List.length_eq_zero, List.filter_eq_nil_iff]
        intro r hr
        have heq := (window_mem hr).2
        simp only [decide_eq_true_eq]
        intro hcon
        exact has (heq.symm.trans hcon)
      rw [hblk]
      simpa using ih hndL

theorem load_count (store : List SaleRow) (slugs : List String) (lim : ℕ) (s : String) :
    ((load_sales_for_owned store slugs lim).filter
      (fun r => r.player_slug = s)).length ≤ lim := by
  unfold load_sales_for_owned
  split
  · simp
  · exact flatMap_window_count store lim s slugs.dedup (List.nodup_dedup slugs)

theorem foldl_processNode_count (slug rar : String) (ldt : Option ℤ) :
    ∀ (ns : List FeedNode) (st : ItemState),
      (ns.foldl (processNode slug rar ldt) st).fetched_new
        ≤ st.fetched_new + ns.length := by
  intro ns
  induction ns with
  | nil => intro st; simp
  | cons n ns ih =>
    intro st
    rw [List.foldl_cons]
    have step : (processNode slug rar ldt st n).fetched_new ≤ st.fetched_new + 1 := by
      unfold processNode
      split
      · simp
      · split <;> simp
    calc (ns.foldl (processNode slug rar ldt) (processNode slug rar ldt st n)).fetched_new
        ≤ (processNode slug rar ldt st n).fetched_new + ns.length := ih _
      _ ≤ st.fetched_new + 1 + ns.length := by omega
      _ = st.fetched_new + (n :: ns).length := by simp; omega

theorem ingest_item_quota (feed : Feed) (item : OwnedItem) (ldt : Option ℤ)
    (bs tl : ℕ)
    (hpages : ∀ req pd, feed req = .ok (some pd) → pd.nodes.length ≤ bs) :
    ∀ (fuel : ℕ) (before : Option String) (st : ItemState) (reqs : List FeedRequest)
      (st' : ItemState) (reqs' : List FeedRequest),
      st.fetched_new ≤ tl + bs - 1 →
      ingest_item feed item ldt bs tl fuel before st reqs = .ok (st', reqs') →
      st'.fetched_new ≤ tl + bs - 1 := by
  intro fuel
  induction fuel with
  | zero =>
    intro before st reqs st' reqs' hst h
    unfold ingest_item at h
    cases h
    exact hst
  | succ fuel ih =>
    intro before st reqs st' reqs' hst h
    unfold ingest_item at h
    split at h
    · rename_i hcond
      split at h
      · cases h
      · cases h; exact hst
      · rename_i pd hfeed
        have hlen : pd.nodes.length ≤ bs := hpages _ _ hfeed
        have hbound : (pd.nodes.foldl
            (processNode item.player_slug (normRarity item.rarity) ldt) st).fetched_new
            ≤ tl + bs - 1 := by
          have := foldl_processNode_count item.player_slug (normRarity item.rarity)
            ldt pd.nodes st
          omega
        split at h
        · cases h; exact hst
        · split at h
          · cases h; exact hbound
          · split at h
            · exact ih _ _ _ _ _ hbound h
            · cases h; exact hbound
    · cases h
      exact hst

theorem foldl_processNode_sellers (slug rar : String) (ldt : Option ℤ) :
    ∀ (ns : List FeedNode) (st : ItemState) (r : SaleRow),
      r ∈ (ns.foldl (processNode slug rar ldt) st).new_rows →
      r ∈ st.new_rows ∨ truthyStr r.seller_slug := by
  intro ns
  induction ns with
  | nil => intro st r h; exact Or.inl h
  | cons n ns ih =>
    intro st r h
    rw [List.foldl_cons] at h
    rcases ih _ r h with h' | h'
    · unfold processNode at h'
      split at h'
      · exact Or.inl h'
      · split at h'
        · simp only [List.mem_append, List.mem_singleton] at h'
          rcases h' with h' | rfl
          · exact Or.inl h'
          · rename_i hseller
            exact Or.inr (by simpa [rowOfNode] using hseller)
        · exact Or.inl h'
    · exact Or.inr h'

theorem ingest_item_sellers (feed : Feed) (item : OwnedItem) (ldt : Option ℤ)
    (bs tl : ℕ) :
    ∀ (fuel : ℕ) (before : Option String) (st : ItemState) (reqs : List FeedRequest)
      (st' : ItemState) (reqs' : List FeedRequest),
      ingest_item feed item ldt bs tl fuel before st reqs = .ok (st', reqs') →
      ∀ r ∈ st'.new_rows, r ∈ st.new_rows ∨ truthyStr r.seller_slug := by
  intro fuel
  induction fuel with
  | zero =>
    intro before st reqs st' reqs' h
    unfold ingest_item at h
    cases h
    exact fun r hr => Or.inl hr
  | succ fuel ih =>
    intro before st reqs st' reqs' h
    unfold ingest_item at h
    split at h
    · split at h
      · cases h
      · cases h; exact fun r hr => Or.inl hr
      · split at h
        · cases h; exact fun r hr => Or.inl hr
        · split at h
          · cases h
            exact foldl_processNode_sellers _ _ _ _ st
          · split at h
            · intro r hr
              rcases ih _ _ _ _ _ h r hr with h' | h'
              · exact foldl_processNode_sellers _ _ _ _ st r h'
              · exact Or.inr h'
            · cases h
              exact foldl_processNode_sellers _ _ _ _ st
    · cases h
      exact fun r hr => Or.inl hr

/-- An uncaught feed exception for any item in the list aborts the whole
per-item loop (the error-ness of one item's paging does not depend on the
shared buffer's contents). -/
theorem run_items_error (feed : Feed) (store : List SaleRow) (bs tl fuel : ℕ) :
    ∀ (items : List OwnedItem) (rows : List SaleRow) (tr : List Effect)
      (item : OwnedItem), item ∈ items →
      (∀ rows' : List SaleRow,
        ingest_item feed item (max_date_for_player store item.player_slug) bs tl fuel none
          { new_rows := rows', fetched_new := 0, stop := false } [] = .error ()) →
      run_items feed store bs tl fuel items rows tr = .error () := by
  intro items
  induction items with
  | nil => intro rows tr item h; cases h
  | cons a rest ih =>
    intro rows tr item hmem herr
    rcases List.mem_cons.mp hmem with rfl | hmem'
    · unfold run_items
      rw [herr rows]
    · unfold run_items
      cases hcase : ingest_item feed a (max_date_for_player store a.player_slug)
          bs tl fuel none { new_rows := rows, fetched_new := 0, stop := false } [] with
      | error e => cases e; rfl
      | ok p =>
        cases p with
        | mk st reqs => exact ih st.new_rows _ item hmem' herr

/-- An uncaught feed exception for any item in the list aborts the whole
per-item loop (the error-ness of one item's paging does not depend on the
shared buffer's contents). -/
theorem dropWhile_all_known (d : ℤ) :
    ∀ (ns : List FeedNode), (∀ n ∈ ns, n.ndate.isSome) →
      ns.Pairwise (fun a b => nodeGeB a b = true) →
      ∀ n ∈ ns.dropWhile (fun n => !reachedKnown (some d) n.ndate),
        reachedKnown (some d) n.ndate = true := by
  intro ns
  induction ns with
  | nil => intro _ _ n hn; simp [List.dropWhile] at hn
  | cons a ns ih =>
    intro hdates hpw n hn
    rw [List.dropWhile_cons] at hn
    by_cases ha : (!reachedKnown (some d) a.ndate) = true
    · rw [if_pos ha] at hn
      exact ih (fun m hm => hdates m (List.mem_cons_of_mem _ hm))
        (List.Pairwise.of_cons hpw) n hn
    · rw [if_neg ha] at hn
      have haK : reachedKnown (some d) a.ndate = true := by
        cases hx : reachedKnown (some d) a.ndate
        · rw [hx] at ha; simp at ha
        · rfl
      rcases List.mem_cons.mp hn with rfl | hn'
      · exact haK
      · have hge : nodeGeB a n = true := (List.pairwise_cons.mp hpw).1 n hn'
        rcases Option.isSome_iff_exists.mp (hdates a (List.mem_cons_self _ _)) with ⟨ta, hta⟩
        rcases Option.isSome_iff_exists.mp
          (hdates n (List.mem_cons_of_mem _ hn')) with ⟨tn, htn⟩
        unfold reachedKnown at haK ⊢
        unfold nodeGeB at hge
        rw [hta] at haK hge
        rw [htn] at hge ⊢
        simp only [decide_eq_true_eq] at haK hge ⊢
        omega

/-- Nodes before the first at-or-before-watermark node are dated strictly
after the watermark. -/
theorem takeWhile_fresh (d : ℤ) (ns : List FeedNode)
    (hdates : ∀ n ∈ ns, n.ndate.isSome) :
    ∀ n ∈ ns.takeWhile (fun n => !reachedKnown (some d) n.ndate),
      ∃ t, n.ndate = some t ∧ d < t := by
  intro n hn
  have h1 : (!reachedKnown (some d) n.ndate) = true :=
    List.mem_takeWhile_imp (l := ns) (p := fun n => !reachedKnown (some d) n.ndate) hn
  have h2 : n ∈ ns :=
    List.Sublist.mem hn
      (List.takeWhile_sublist (fun m : FeedNode => !reachedKnown (some d) m.ndate))
  rcases Option.isSome_iff_exists.mp (hdates n h2) with ⟨t, ht⟩
  refine ⟨t, ht, ?_⟩
  unfold reachedKnown at h1
  rw [ht] at h1
  simp only [Bool.not_eq_true', decide_eq_false_iff_not, not_le] at h1
  exact h1

theorem foldl_processNode_fresh (slug rar : String) (ldt : Option ℤ) :
    ∀ (ns : List FeedNode) (st : ItemState),
      (∀ n ∈ ns, reachedKnown ldt n.ndate = false) →
      ns.foldl (processNode slug rar ldt) st
        = ItemState.mk
            (st.new_rows
              ++ ((ns.filter (fun n => truthyStr n.seller_slug)).map (rowOfNode slug rar)))
            (st.fetched_new + (ns.filter (fun n => truthyStr n.seller_slug)).length)
            st.stop := by
  intro ns
  induction ns with
  | nil => intro st h; simp
  | cons n ns ih =>
    intro st h
    have hn : reachedKnown ldt n.ndate = false := h n (List.mem_cons_self _ _)
    rw [List.foldl_cons]
    by_cases hs : truthyStr n.seller_slug
    · rw [show processNode slug rar ldt st n
          = { st with new_rows := st.new_rows ++ [rowOfNode slug rar n]
                      fetched_new := st.fetched_new + 1 } by
        unfold processNode; rw [hn]; simp [hs]]
    
      rw [ih _ (fun m hm => h m (List.mem_cons_of_mem _ hm))]
      simp [List.filter_cons, hs]
      omega
    · rw [show processNode slug rar ldt st n = st by
        unfold processNode; rw [hn]; simp [hs]]
      rw [ih _ (fun m hm => h m (List.mem_cons_of_mem _ hm))]
      simp [List.filter_cons, hs]

theorem foldl_processNode_known (slug rar : String) (ldt : Option ℤ) :
    ∀ (ns : List FeedNode) (st : ItemState),
      ns ≠ [] →
      (∀ n ∈ ns, reachedKnown ldt n.ndate = true) →
      ns.foldl (processNode slug rar ldt) st = { st with stop := true } := by
  intro ns
  induction ns with
  | nil => intro st h; exact absurd rfl h
  | cons n ns ih =>
    intro st _ h
    rw [List.foldl_cons]
    rw [show processNode slug rar ldt st n = { st with stop := true } by
      unfold processNode; rw [h n (List.mem_cons_self _ _)]; simp]
    rcases eq_or_ne ns [] with rfl | hne
    · simp
    · rw [ih _ hne (fun m hm => h m (List.mem_cons_of_mem _ hm))]

/-- C2 (amended): once the first node dated at or before the stored
watermark is encountered in a fetched batch, the stop flag is set and no
further feed page is requested for that item — the loop issues exactly the
one request that produced this batch and returns.  The remaining nodes of
the same batch are still scanned individually (the source uses `continue`,
not `break`); when the batch is ordered newest-first with parseable dates,
as the feed provides, the accepted rows are exactly the seller-bearing
nodes strictly before the first at-or-before-watermark node, all dated
after the watermark. -/
theorem ingest_stops_at_watermark (feed : Feed) (item : OwnedItem) (d : ℤ)
    (bs tl fuel : ℕ) (before : Option String) (st : ItemState) (reqs : List FeedRequest)
    (pd : PageData)
    (hact : st.fetched_new < tl) (hstop : st.stop = false)
    (hfeed : feed (mkRequest item before bs) = .ok (some pd))
    (hdates : ∀ n ∈ pd.nodes, n.ndate.isSome)
    (hsorted : pd.nodes.Pairwise (fun a b => nodeGeB a b = true))
    (hhit : ∃ n ∈ pd.nodes, reachedKnown (some d) n.ndate = true) :
    ingest_item feed item (some d) bs tl (fuel+1) before st reqs
      = .ok (ItemState.mk
          (st.new_rows
            ++ ((pd.nodes.takeWhile (fun n => !reachedKnown (some d) n.ndate)).filter
              (fun n => truthyStr n.seller_slug)).map
                (rowOfNode item.player_slug (normRarity item.rarity)))
          (st.fetched_new +
            ((pd.nodes.takeWhile (fun n => !reachedKnown (some d) n.ndate)).filter
              (fun n => truthyStr n.seller_slug)).length)
          true,
        reqs ++ [mkRequest item before bs]) ∧
    (∀ n ∈ pd.nodes.takeWhile (fun n => !reachedKnown (some d) n.ndate),
      ∃ t, n.ndate = some t ∧ d < t) := by
  have hne : pd.nodes ≠ [] := by
    rcases hhit with ⟨n, hn, _⟩
    exact List.ne_nil_of_mem hn
  have hsplit := List.takeWhile_append_dropWhile
    (p := fun n : FeedNode => !reachedKnown (some d) n.ndate) (l := pd.nodes)
  have hBne : pd.nodes.dropWhile (fun n => !reachedKnown (some d) n.ndate) ≠ [] := by
    intro hB
    rcases hhit with ⟨n, hn, hnK⟩
    rw [hB, List.append_nil] at hsplit
    have := List.mem_takeWhile_imp (l := pd.nodes)
      (p := fun n : FeedNode => !reachedKnown (some d) n.ndate) (hsplit ▸ hn)
    simp [hnK] at this
  have hfold : pd.nodes.foldl
      (processNode item.player_slug (normRarity item.rarity) (some d)) st
      = ItemState.mk
          (st.new_rows
            ++ ((pd.nodes.takeWhile (fun n => !reachedKnown (some d) n.ndate)).filter
              (fun n => truthyStr n.seller_slug)).map
                (rowOfNode item.player_slug (normRarity item.rarity)))
          (st.fetched_new +
            ((pd.nodes.takeWhile (fun n => !reachedKnown (some d) n.ndate)).filter
              (fun n => truthyStr n.seller_slug)).length)
          true := by
    conv_lhs => rw [← hsplit]
    rw [List.foldl_append]
    rw [foldl_processNode_fresh _ _ _ _ st (fun n hn => by
      have := List.mem_takeWhile_imp (l := pd.nodes)
        (p := fun m : FeedNode => !reachedKnown (some d) m.ndate) hn
      simpa using this)]
    rw [foldl_processNode_known _ _ _ _ _ hBne
      (dropWhile_all_known d pd.nodes hdates hsorted)]
  refine ⟨?_, takeWhile_fresh d pd.nodes hdates⟩
  unfold ingest_item
  rw [if_pos ⟨hact, hstop⟩]
  simp only [hfeed]
  rw [if_neg (by simpa using hne)]
  rw [hfold]
  rfl

/-! ## Claim theorems, witnesses and counterexamples -/


theorem upsert_keeps_sellers (store0 nr : List SaleRow) :
    sellersPresent (upsert_sales (ensure_schema store0) nr) := by
  intro r hr
  rcases mem_upsert hr with h | ⟨_, ht⟩
  · have := List.mem_filter.mp h
    exact Option.isSome_iff_ne_none.mp (by simpa using this.2)
  · exact truthy_ne_none ht

/-- C3: `weighted_median` sorts the (value, weight) pairs by value
ascending, computes cumulative weights, and returns the value at the first
position whose cumulative weight is at least half the total weight
(lower-median tie-break, no interpolation); in particular for values
`[10, 20]` with weights `[1, 3]` it returns `20`, and for `[5, 5, 5]`
with equal weights it returns `5`. -/
theorem weighted_median_correct (data weights : List ℚ)
    (hne : data ≠ []) (hlen : weights.length = data.length)
    (hw : ∀ w ∈ weights, 0 ≤ w) :
    (∃ k, k < ((data.zip weights).insertionSort valOrder).length ∧
      ((data.zip weights).insertionSort valOrder).Sorted valOrder ∧
      weights.sum / 2
        ≤ (cumsum (((data.zip weights).insertionSort valOrder).map Prod.snd)).getD k 0 ∧
      (∀ j < k,
        (cumsum (((data.zip weights).insertionSort valOrder).map Prod.snd)).getD j 0
          < weights.sum / 2) ∧
      weighted_median data weights
        = (((data.zip weights).insertionSort valOrder).map Prod.fst).getD k 0) ∧
    weighted_median [10, 20] [1, 3] = 20 ∧
    weighted_median [5, 5, 5] [1, 1, 1] = 5 := by
  refine ⟨?_, ?_, ?_⟩
  · set sorted := (data.zip weights).insertionSort valOrder with hsorted
    set ws := sorted.map Prod.snd with hws
    set cs := cumsum ws with hcs
    set half := weights.sum / 2 with hhalf
    have hzlen : (data.zip weights).length = data.length := by
      rw [List.length_zip, hlen, min_self]
    have hslen : sorted.length = data.length := by
      rw [hsorted, List.length_insertionSort, hzlen]
    have hwslen : ws.length = data.length := by rw [hws, List.length_map, hslen]
    have hcslen : cs.length = data.length := by rw [hcs, cumsum_length, hwslen]
    have hwsperm : ws.Perm weights := by
      have h1 : sorted.Perm (data.zip weights) := List.perm_insertionSort _ _
      have h2 : ws.Perm ((data.zip weights).map Prod.snd) := h1.map Prod.snd
      rwa [List.map_snd_zip data weights (le_of_eq hlen)] at h2
    have hwsum : ws.sum = weights.sum := hwsperm.sum_eq
    have hsum0 : (0:ℚ) ≤ weights.sum := List.sum_nonneg hw
    have hhs : half ≤ weights.sum := by
      rw [hhalf]; linarith
    have hwsne : ws ≠ [] := by
      intro h
      have := hwslen
      rw [h] at this
      simp only [List.length_nil] at this
      exact hne (List.eq_nil_of_length_eq_zero this.symm)
    have hmem : weights.sum ∈ cs := by
      rw [hcs, ← hwsum]; exact sum_mem_cumsum hwsne
    have hex : ∃ c ∈ cs, (fun c => decide (half ≤ c)) c = true :=
      ⟨weights.sum, hmem, decide_eq_true hhs⟩
    have hk : cs.findIdx (fun c => decide (half ≤ c)) < cs.length :=
      List.findIdx_lt_length_of_exists hex
    refine ⟨cs.findIdx (fun c => decide (half ≤ c)), by omega, ?_, ?_, ?_, ?_⟩
    · exact List.sorted_insertionSort valOrder _
    · rw [List.getD_eq_getElem cs 0 hk]
      exact of_decide_eq_true (List.findIdx_getElem (w := hk))
    · intro j hj
      have hjlen : j < cs.length := lt_trans hj hk
      rw [List.getD_eq_getElem cs 0 hjlen]
      have : (fun c => decide (half ≤ c)) cs[j] = false := List.not_of_lt_findIdx hj
      have h2 : ¬ (half ≤ cs[j]) := of_decide_eq_false this
      linarith [lt_of_not_le h2]
    · show weighted_median data weights = _
      unfold weighted_median
      simp only [← hsorted, ← hws, ← hcs]
      rw [hwsum, ← hhalf]
  · norm_num [weighted_median, valOrder, cumsum, List.findIdx_cons, List.orderedInsert]
  · norm_num [weighted_median, valOrder, cumsum, List.findIdx_cons, List.orderedInsert]

/-- C7: with decay rate `0` every record gets weight `exp 0 = 1`, so the
per-item estimate of `estimate_current_value` equals the ordinary
lower-median of all of that item's prices. -/
theorem estimate_decay_zero (sales : List Sale) (s : String) (hs : s ∈ slugsOf sales) :
    (s, lowerMedian ((sales.filter (fun r => r.player_slug = s)).map (fun r => r.price)))
      ∈ estimate_current_value (fun _ => 1) sales := by
  unfold estimate_current_value
  apply List.mem_map.mpr
  refine ⟨s, hs, ?_⟩
  simp only []
  set g := (sales.filter (fun r => r.player_slug = s)).insertionSort saleDateAsc with hg
  have hgperm : g.Perm (sales.filter (fun r => r.player_slug = s)) :=
    List.perm_insertionSort _ _
  have hgne : g ≠ [] := by
    have : ∃ x ∈ sales, x.player_slug = s := by
      rcases List.mem_map.mp (List.mem_dedup.mp hs) with ⟨x, hx, hxs⟩
      exact ⟨x, hx, hxs⟩
    rcases this with ⟨x, hx, hxs⟩
    have : x ∈ g := hgperm.mem_iff.mpr (List.mem_filter.mpr ⟨hx, by simp [hxs]⟩)
    exact List.ne_nil_of_mem this
  have hprices_ne : g.map (fun r => r.price) ≠ [] := by
    intro h
    exact hgne (List.map_eq_nil_iff.mp h)
  have hwts : g.map (fun r =>
      (fun _ : ℕ => (1:ℚ)) (((g.map (fun r => r.date)).max?.getD 0) - r.date).toNat)
      = List.replicate (g.map (fun r => r.price)).length 1 := by
    rw [List.map_const' g 1, List.length_map]
  rw [hwts, weighted_median_ones _ hprices_ne]
  congr 1
  exact lowerMedian_perm (hgperm.map (fun r => r.price))

/-- C4: `upsert_sales` inserts only rows whose `id` is not already
present, silently skips colliding rows without modifying existing ones
(the old store is a prefix of the result), and preserves the at-most-one-
row-per-id invariant — so upserting the same record twice never produces
two rows. -/
theorem upsert_dedup (store rows : List SaleRow) (h : uniqueIds store) :
    uniqueIds (upsert_sales store rows) ∧
    ∃ tail, upsert_sales store rows = store ++ tail ∧
      ∀ r ∈ tail, r ∈ rows ∧ ∀ x ∈ store, x.id ≠ r.id := by
  unfold upsert_sales
  rcases upsert_fold_spec (rows.filter fun r => truthyStr r.seller_slug) store h
    with ⟨h1, tail, h2, h3⟩
  exact ⟨h1, tail, h2, fun r hr =>
    ⟨List.mem_of_mem_filter (h3 r hr).1, (h3 r hr).2⟩⟩

/-- C5: no record with a null seller is ever persisted: `upsert_sales`
filters seller-less rows before writing (preserving the seller invariant
for any store that has it), the ingestion loop buffers only rows with a
truthy seller, and after any successful `fetch_recent_sales` run both the
store and the returned window satisfy the invariant. -/
theorem no_null_seller_persisted (store rows : List SaleRow)
    (hstore : sellersPresent store)
    (feed : Feed) (store0 : List SaleRow) (items : List OwnedItem)
    (bs tl fuel : ℕ) (res : RunResult)
    (hrun : fetch_recent_sales feed store0 items bs tl fuel = .ok res) :
    sellersPresent (upsert_sales store rows) ∧
    (∀ (item : OwnedItem) (ldt : Option ℤ) (fuel' : ℕ) (before : Option String)
        (st st' : ItemState) (reqs reqs' : List FeedRequest),
      ingest_item feed item ldt bs tl fuel' before st reqs = .ok (st', reqs') →
      ∀ r ∈ st'.new_rows, r ∈ st.new_rows ∨ truthyStr r.seller_slug) ∧
    sellersPresent res.store ∧ sellersPresent res.window := by
  refine ⟨?_, ?_, ?_⟩
  · intro r hr
    rcases mem_upsert hr with h | ⟨_, ht⟩
    · exact hstore r h
    · exact truthy_ne_none ht
  · intro item ldt fuel' before st st' reqs reqs' h
    exact ingest_item_sellers feed item ldt bs tl fuel' before st reqs st' reqs' h
  · unfold fetch_recent_sales at hrun
    cases hm : run_items feed (ensure_schema store0) bs tl fuel items []
        [Effect.ensureSchema] with
    | error e => rw [hm] at hrun; cases hrun
    | ok p =>
      rw [hm] at hrun
      cases p with
      | mk nr tr =>
        cases hrun
        constructor
        · show sellersPresent (upsert_sales (ensure_schema store0) nr)
          exact upsert_keeps_sellers store0 nr
        · intro r hr
          have hr' : r ∈ upsert_sales (ensure_schema store0) nr := mem_load hr
          exact upsert_keeps_sellers store0 nr r hr'

/-- C6: `load_sales_for_owned` returns, per requested item, at most
`limit` most-recent records in date-descending order (all of them when
fewer exist: the per-item length is `min limit count`), nothing for
unknown items, at most `limit` rows per item in the combined result, every
returned row belongs to a requested item's window, and an empty item list
yields an empty result for every store (the store is not consulted). -/
theorem load_window_correct :
    (∀ (store : List SaleRow) (limit : ℕ), load_sales_for_owned store [] limit = []) ∧
    (∀ (store : List SaleRow) (slug : String) (limit : ℕ),
      (window_for_slug store slug limit).length
        = min limit (store.filter (fun r => r.player_slug = slug)).length ∧
      (window_for_slug store slug limit).Sorted byDateDesc ∧
      (∀ r ∈ window_for_slug store slug limit, r ∈ store ∧ r.player_slug = slug) ∧
      ((∀ r ∈ store, r.player_slug ≠ slug) → window_for_slug store slug limit = []) ∧
      (∀ x ∈ ((store.filter (fun r => r.player_slug = slug)).insertionSort
          byDateDesc).drop limit,
        ∀ y ∈ window_for_slug store slug limit, dateKey x ≤ dateKey y)) ∧
    (∀ (store : List SaleRow) (slugs : List String) (limit : ℕ) (s : String),
      ((load_sales_for_owned store slugs limit).filter
        (fun r => r.player_slug = s)).length ≤ limit) ∧
    (∀ (store : List SaleRow) (slugs : List String) (limit : ℕ) (r : SaleRow),
      r ∈ load_sales_for_owned store slugs limit →
      r.player_slug ∈ slugs ∧ r ∈ window_for_slug store r.player_slug limit) :=
  ⟨fun store limit => by simp [load_sales_for_owned],
   fun store slug limit => ⟨window_len store slug limit, window_sorted store slug limit,
     fun r hr => window_mem hr, window_unknown, window_most_recent⟩,
   load_count,
   fun _ _ _ _ h => mem_load_link h⟩

/-- C1 (amended): a transient feed error while paging one item is NOT
caught: it propagates out of `fetch_recent_sales` and aborts the whole
run.  Since the single upsert and the end-of-run window read happen only
after all items are processed, a run aborted by any item's fetch failure
commits nothing and returns no window; previously committed store rows
are unaffected (the aborted run performs no store write). -/
theorem fetch_error_aborts_run (feed : Feed) (store0 : List SaleRow)
    (items : List OwnedItem) (bs tl fuel : ℕ) (item : OwnedItem)
    (hmem : item ∈ items)
    (herr : ∀ rows : List SaleRow,
      ingest_item feed item (max_date_for_player (ensure_schema store0) item.player_slug)
        bs tl fuel none { new_rows := rows, fetched_new := 0, stop := false } []
        = .error ()) :
    fetch_recent_sales feed store0 items bs tl fuel = .error () := by
  unfold fetch_recent_sales
  rw [run_items_error feed (ensure_schema store0) bs tl fuel items [] _ item hmem herr]

/-- C8 (amended): only seller-less nodes are validation drops.  A fetched
node that has a seller but lacks a price is accepted: `processNode` counts
it toward the per-item quota and buffers it with a null `price_eur`
(whether `amounts.eurCents` is missing or `0`), and `upsert_sales`
persists such a row. -/
theorem priceless_node_accepted (slug rar : String) (ldt : Option ℤ)
    (st : ItemState) (n : FeedNode) (store : List SaleRow)
    (hseller : truthyStr n.seller_slug = true)
    (hknown : reachedKnown ldt n.ndate = false)
    (hid : ∀ x ∈ store, x.id ≠ n.id) :
    processNode slug rar ldt st n
      = ItemState.mk (st.new_rows ++ [rowOfNode slug rar n]) (st.fetched_new + 1) st.stop ∧
    ((n.amount_eurCents = none ∨ n.amount_eurCents = some 0) →
      (rowOfNode slug rar n).price_eur = none) ∧
    rowOfNode slug rar n ∈ upsert_sales store [rowOfNode slug rar n] := by
  refine ⟨?_, ?_, ?_⟩
  · unfold processNode
    rw [hknown]
    simp [hseller]
  · intro h
    rcases h with h | h <;> simp [rowOfNode, toEur, h]
  · have hrow : truthyStr (rowOfNode slug rar n).seller_slug = true := by
      simpa [rowOfNode] using hseller
    unfold upsert_sales
    rw [show ([rowOfNode slug rar n].filter (fun r => truthyStr r.seller_slug))
        = [rowOfNode slug rar n] by simp [hrow]]
    rw [List.foldl_cons]
    rw [show (store.any (fun x => x.id == (rowOfNode slug rar n).id)) = false by
      rw [List.any_eq_false]
      intro x hx
      simpa [rowOfNode] using hid x hx]
    simp

/-- C10: the per-item quota is consulted only between pages: whenever all
pages hold at most `batch_size` nodes, the accepted count never exceeds
`total_limit + batch_size - 1`; and the bound is attained — with
`total_limit = 2`, `batch_size = 2`, a page of one qualifying node
followed by a page of two, the loop accepts `3 > 2` records, every
qualifying node of the final page included. -/
theorem quota_between_pages (feed : Feed) (item : OwnedItem) (ldt : Option ℤ)
    (bs tl : ℕ)
    (hpages : ∀ req pd, feed req = .ok (some pd) → pd.nodes.length ≤ bs) :
    (∀ (fuel : ℕ) (before : Option String) (st : ItemState) (reqs : List FeedRequest)
        (st' : ItemState) (reqs' : List FeedRequest),
      st.fetched_new ≤ tl + bs - 1 →
      ingest_item feed item ldt bs tl fuel before st reqs = .ok (st', reqs') →
      st'.fetched_new ≤ tl + bs - 1) ∧
    (ingest_item feedTwoPages itemP none 2 2 3 none
        { new_rows := [], fetched_new := 0, stop := false } []).toOption.map
      (fun p => p.1.fetched_new) = some 3 :=
  ⟨ingest_item_quota feed item ldt bs tl hpages, rfl⟩

/-- C9 (amended): with an empty item set, `fetch_recent_sales` returns an
empty window, issues no feed request, no watermark read, no upsert write
and no window query — but it does contact the store: the unconditional
`ensure_schema` call at the start of every run executes against it (and
may delete legacy null-seller rows). -/
theorem empty_inventory_short_circuit (feed : Feed) (store0 : List SaleRow)
    (bs tl fuel : ℕ) :
    fetch_recent_sales feed store0 [] bs tl fuel
      = .ok { store := ensure_schema store0, window := [], trace := [Effect.ensureSchema] } :=
  rfl



/-- C1 counterexample: with a feed that raises for item `q`, the run over
`[p, q]` does not catch the error and returns no result at all — while the
identical run over `[p]` alone succeeds and commits `p`'s fetched row.  So
a failure of one item is not isolated, and other items' rows are not
committed nor readable in an end-of-run window. -/
theorem fetch_error_not_caught_counterexample :
    fetch_recent_sales feedErrQ [] [itemP, itemQ] 50 150 3 = .error () ∧
    (fetch_recent_sales feedErrQ [] [itemP] 50 150 3).toOption.map
      (fun r => (r.store, r.window))
      = some ([rowOfNode "p" (normRarity "Limited") nodeA],
          [rowOfNode "p" (normRarity "Limited") nodeA]) :=
  ⟨rfl, rfl⟩

/-- C1 witness: the amended theorem at a concrete erring feed. -/
theorem fetch_error_aborts_run_witness :
    fetch_recent_sales feedErrQ [] [itemP, itemQ] 50 150 3 = .error () :=
  fetch_error_aborts_run feedErrQ [] [itemP, itemQ] 50 150 3 itemQ
    (by simp) (fun _ => rfl)

/-- C2 counterexample: in a batch whose first node is at the watermark
(date 3 ≤ 5) and whose second node is fresh (date 9), the second node IS
accepted as a new record (`fetched_new = 1`, its row buffered) even though
it appears after the first at-or-before-watermark node — the source
`continue`s instead of `break`ing, refuting "no further node from that
batch onward is accepted". -/
theorem watermark_continue_counterexample :
    ingest_item feedUnsorted itemP (some 5) 50 150 2 none
        { new_rows := [], fetched_new := 0, stop := false } []
      = .ok (ItemState.mk [rowOfNode "p" (normRarity "Limited") nodeA] 1 true,
        [mkRequest itemP none 50]) ∧
    feedUnsorted (mkRequest itemP none 50)
      = .ok (some (PageData.mk [nodeOld, nodeA] false none)) ∧
    reachedKnown (some 5) nodeOld.ndate = true ∧
    reachedKnown (some 5) nodeA.ndate = false :=
  ⟨rfl, rfl, rfl, rfl⟩

/-- C2 witness: the amended theorem at a concrete newest-first batch. -/
theorem ingest_stops_at_watermark_witness :
    ingest_item feedSorted itemP (some 5) 50 150 (0+1) none
        { new_rows := [], fetched_new := 0, stop := false } []
      = .ok (ItemState.mk
          (([] : List SaleRow)
            ++ ((([nodeA, nodeOld].takeWhile
                  (fun n => !reachedKnown (some 5) n.ndate)).filter
              (fun n => truthyStr n.seller_slug)).map
                (rowOfNode itemP.player_slug (normRarity itemP.rarity))))
          (0 + (([nodeA, nodeOld].takeWhile
                  (fun n => !reachedKnown (some 5) n.ndate)).filter
              (fun n => truthyStr n.seller_slug)).length)
          true,
        [] ++ [mkRequest itemP none 50]) ∧
    ∀ n ∈ [nodeA, nodeOld].takeWhile (fun n => !reachedKnown (some 5) n.ndate),
      ∃ t, n.ndate = some t ∧ 5 < t :=
  ingest_stops_at_watermark feedSorted itemP 5 50 150 0 none
    { new_rows := [], fetched_new := 0, stop := false } []
    (PageData.mk [nodeA, nodeOld] false none)
    (by decide) rfl rfl (by decide) (by decide) (by decide)

/-- C3 witness: the theorem applied at the spec's two examples. -/
theorem weighted_median_correct_witness :
    weighted_median [10, 20] [1, 3] = 20 ∧ weighted_median [5, 5, 5] [1, 1, 1] = 5 :=
  ⟨(weighted_median_correct [10, 20] [1, 3] (by simp) (by simp) (by norm_num)).2.1,
   (weighted_median_correct [5, 5, 5] [1, 1, 1] (by simp) (by simp) (by norm_num)).2.2⟩

/-- C4 witness: double insert of one record from the empty store. -/
theorem upsert_dedup_witness :
    uniqueIds (upsert_sales []
      [rowOfNode "p" (normRarity "Limited") nodeA,
       rowOfNode "p" (normRarity "Limited") nodeA]) :=
  (upsert_dedup []
    [rowOfNode "p" (normRarity "Limited") nodeA,
     rowOfNode "p" (normRarity "Limited") nodeA] (by simp [uniqueIds])).1

/-- C5 witness: a concrete successful run keeps the seller invariant. -/
theorem no_null_seller_persisted_witness :
    ∃ res, fetch_recent_sales feedNoPrice [] [itemP] 50 150 2 = .ok res ∧
      sellersPresent res.store ∧ sellersPresent res.window := by
  refine ⟨_, rfl, ?_, ?_⟩
  · exact (no_null_seller_persisted [] [] (by intro r hr; cases hr)
      feedNoPrice [] [itemP] 50 150 2 _ rfl).2.2.1
  · exact (no_null_seller_persisted [] [] (by intro r hr; cases hr)
      feedNoPrice [] [itemP] 50 150 2 _ rfl).2.2.2

/-- C6 witness: empty request list and unknown item at concrete inputs. -/
theorem load_window_correct_witness :
    load_sales_for_owned [rowLegacy] [] 3 = [] ∧ window_for_slug [] "p" 3 = [] :=
  ⟨load_window_correct.1 [rowLegacy] 3,
   (load_window_correct.2.1 [] "p" 3).2.2.2.1 (by intro r hr; cases hr)⟩

/-- C7 witness: a one-sale history at decay rate zero. -/
theorem estimate_decay_zero_witness :
    ("p", lowerMedian ((([⟨"p", 5, 0⟩] : List Sale).filter
        (fun r => r.player_slug = "p")).map (fun r => r.price)))
      ∈ estimate_current_value (fun _ => 1) [⟨"p", 5, 0⟩] :=
  estimate_decay_zero [⟨"p", 5, 0⟩] "p" (by simp [slugsOf])

/-- C8 counterexample: a node with a seller but no price
(`amounts.eurCents` missing) is counted toward the quota
(`fetched_new = 1`) and persisted to the store with `price_eur = none` —
it is not excluded from either, refuting the claim. -/
theorem priceless_node_counterexample :
    ingest_item feedNoPrice itemP none 50 150 2 none
        { new_rows := [], fetched_new := 0, stop := false } []
      = .ok (ItemState.mk [rowOfNode "p" (normRarity "Limited") nodeNoPrice] 1 false,
        [mkRequest itemP none 50]) ∧
    nodeNoPrice.amount_eurCents = none ∧
    (rowOfNode "p" (normRarity "Limited") nodeNoPrice).price_eur = none ∧
    (fetch_recent_sales feedNoPrice [] [itemP] 50 150 2).toOption.map
      (fun r => r.store) = some [rowOfNode "p" (normRarity "Limited") nodeNoPrice] :=
  ⟨rfl, rfl, rfl, rfl⟩

/-- C8 witness: the amended theorem at the concrete price-less node. -/
theorem priceless_node_accepted_witness :
    processNode "p" (normRarity "Limited") none
        { new_rows := [], fetched_new := 0, stop := false } nodeNoPrice
      = ItemState.mk [rowOfNode "p" (normRarity "Limited") nodeNoPrice] 1 false ∧
    (rowOfNode "p" (normRarity "Limited") nodeNoPrice).price_eur = none ∧
    rowOfNode "p" (normRarity "Limited") nodeNoPrice
      ∈ upsert_sales [] [rowOfNode "p" (normRarity "Limited") nodeNoPrice] := by
  have h := priceless_node_accepted "p" (normRarity "Limited") none
    { new_rows := [], fetched_new := 0, stop := false } nodeNoPrice []
    (by decide) rfl (by intro x hx; cases hx)
  exact ⟨h.1, h.2.1 (Or.inl rfl), h.2.2⟩

/-- C9 counterexample: with no items supplied, the run still touches the
store: the unconditional `ensure_schema` call deletes a legacy null-seller
row, so the store after the run (`[]`) differs from the store before
(`[rowLegacy]`) — a store write was issued, refuting "no store read or
write". -/
theorem empty_inventory_counterexample :
    fetch_recent_sales (fun _ => FeedResult.ok none) [rowLegacy] [] 50 150 1
      = .ok { store := [], window := [], trace := [Effect.ensureSchema] } ∧
    ([] : List SaleRow) ≠ [rowLegacy] :=
  ⟨rfl, by decide⟩

/-- C10 witness: bound and overshoot at the concrete two-page feed. -/
theorem quota_between_pages_witness :
    (ingest_item feedTwoPages itemP none 2 2 3 none
        { new_rows := [], fetched_new := 0, stop := false } []).toOption.map
      (fun p => p.1.fetched_new) = some 3 ∧
    (∀ (st' : ItemState) (reqs' : List FeedRequest),
      ingest_item feedTwoPages itemP none 2 2 3 none
        { new_rows := [], fetched_new := 0, stop := false } [] = .ok (st', reqs') →
      st'.fetched_new ≤ 2 + 2 - 1) := by
  have hp : ∀ req pd, feedTwoPages req = .ok (some pd) → pd.nodes.length ≤ 2 := by
    intro req pd h
    unfold feedTwoPages at h
    split at h
    · cases h; decide
    · split at h
      · cases h; decide
      · cases h
  exact ⟨(quota_between_pages feedTwoPages itemP none 2 2 hp).2,
    fun st' reqs' h => (quota_between_pages feedTwoPages itemP none 2 2 hp).1
      3 none { new_rows := [], fetched_new := 0, stop := false } [] st' reqs'
      (by decide) h⟩

end Sorare
